import Mathlib

/-!
Verification of the SDS document-formatter pipeline (`generate_from_model.py`).

Shallow embedding conventions:
* Python strings are modelled as `List Char` (named `Str` below), so that
  induction over characters is direct.
* Library behaviour used by the script (python-docx paragraph/table access,
  PyMuPDF page iteration, `json.loads`, `str.replace`, `str.strip` /
  `str.lstrip` / `str.rstrip` with their character-set semantics, and `dict`
  insertion-order update semantics) is modelled faithfully on this
  representation.
* Every external effect (Gemini service call, file read) is passed in as an
  explicit value or oracle function: `Option` for a call that may raise,
  `Except` for a file read that may raise.
-/

/-- Python strings are modelled as lists of characters. -/
abbrev Str := List Char

/-- `leadsWith pat s` is true when `s` starts with `pat`
(the prefix test used by `str.replace` scanning and marker stripping). -/
def leadsWith : Str → Str → Bool
  | [], _ => true
  | _ :: _, [] => false
  | c :: ps, d :: ss => c = d && leadsWith ps ss

/-- Python's substring test `pat in s`. -/
def strContains (s pat : Str) : Bool :=
  if leadsWith pat s then true
  else
    match s with
    | [] => false
    | _ :: rest => strContains rest pat

/-- `''.join`-style joining with a separator, mirroring Python `sep.join(parts)`. -/
def joinWith (sep : Str) : List Str → Str
  | [] => []
  | [x] => x
  | x :: y :: ys => x ++ sep ++ joinWith sep (y :: ys)

/-- Fuel-based core of Python `s.replace(old, new)`; the fuel always exceeds
`s.length` wherever it is used, so the `0` branch is never taken. -/
def pyReplaceAux (new old : Str) : Nat → Str → Str
  | 0, s => s
  | fuel + 1, s =>
    if old = [] then new ++ s.flatMap (fun c => c :: new)
    else if leadsWith old s then new ++ pyReplaceAux new old fuel (s.drop old.length)
    else
      match s with
      | [] => []
      | c :: rest => c :: pyReplaceAux new old fuel rest

/-- Python `s.replace(old, new)`: replaces every non-overlapping occurrence of
`old` left to right; with `old = ''` it interleaves `new` around every
character, as Python does. -/
def pyReplace (s old new : Str) : Str := pyReplaceAux new old (s.length + 1) s

/-- Fuel-based core of Python `s.split(old)`; fuel always exceeds `s.length`. -/
def pySplitOnAux (old : Str) : Nat → Str → List Str
  | 0, s => [s]
  | fuel + 1, s =>
    if old = [] then [s]
    else if leadsWith old s then [] :: pySplitOnAux old fuel (s.drop old.length)
    else
      match s with
      | [] => [[]]
      | c :: rest =>
        match pySplitOnAux old fuel rest with
        | [] => [[c]]
        | t :: ts => (c :: t) :: ts

/-- Python `s.split(old)` for non-empty `old` (greedy, left to right,
non-overlapping); `old = ''` is mapped to `[s]` (Python raises there, and the
script never reaches that case through a split). -/
def pySplitOn (s old : Str) : List Str := pySplitOnAux old (s.length + 1) s

/-! ## python-docx document model

A paragraph is its list of formatting runs (each run carrying its text);
`Paragraph.text` in python-docx is the concatenation of the run texts.
A table is a list of rows, a row a list of cells, and a cell a list of
paragraphs; `Cell.text` is the newline join of its paragraph texts. -/

/-- A formatting run, reduced to its text. -/
abbrev Run := Str

/-- A paragraph: the list of its formatting runs. -/
abbrev Paragraph := List Run

/-- A table cell: its list of paragraphs. -/
abbrev Cell := List Paragraph

/-- A table: rows of cells. -/
abbrev Table := List (List Cell)

/-- A docx document: top-level paragraphs plus tables. -/
structure Document where
  paragraphs : List Paragraph
  tables : List Table
deriving DecidableEq

/-- python-docx `Paragraph.text`: concatenation of the run texts. -/
def paraText (p : Paragraph) : Str := p.flatten

/-- python-docx `Cell.text`: newline join of the cell's paragraph texts. -/
def cellText (c : Cell) : Str := joinWith ['\n'] (c.map paraText)

/-- Inner run loop of `docx_replace`: each run whose own text contains
`old` has the occurrence(s) replaced within that run alone. -/
def replaceRuns (old new : Str) (p : Paragraph) : Paragraph :=
  p.map (fun r => if strContains r old then pyReplace r old new else r)

/-- Per-paragraph body of `docx_replace`: the run loop runs only when the
paragraph's rendered text contains `old`. -/
def replaceInPar (old new : Str) (p : Paragraph) : Paragraph :=
  if strContains (paraText p) old then replaceRuns old new p else p

/-- One iteration of the outer `for old_text, new_text in replacements.items()`
loop of `docx_replace`: the paragraph pass over `doc.paragraphs` followed by
the pass over every paragraph of every table cell. -/
def docx_replace_step (doc : Document) (e : Str × Str) : Document :=
  { paragraphs := doc.paragraphs.map (replaceInPar e.1 e.2),
    tables := doc.tables.map (fun table =>
      table.map (fun row => row.map (fun cell => cell.map (replaceInPar e.1 e.2)))) }

/-- `docx_replace(doc, replacements)`: the entries are applied sequentially,
in the iteration order of the replacements dict. -/
def docx_replace (doc : Document) (replacements : List (Str × Str)) : Document :=
  replacements.foldl docx_replace_step doc

/-- All paragraphs of a document in traversal order: top-level paragraphs,
then the paragraphs of each table cell. -/
def parasOf (doc : Document) : List Paragraph :=
  doc.paragraphs ++
    doc.tables.flatMap (fun table => table.flatMap (fun row => row.flatMap (fun cell => cell)))

/-- Fuel-based core of the simultaneous substitution; fuel always exceeds
`s.length`. -/
def simultaneousSubAux (entries : List (Str × Str)) : Nat → Str → Str
  | 0, s => s
  | fuel + 1, s =>
    match entries.find? (fun e => !e.1.isEmpty && leadsWith e.1 s) with
    | some e => e.2 ++ simultaneousSubAux entries fuel (s.drop e.1.length)
    | none =>
      match s with
      | [] => []
      | c :: rest => c :: simultaneousSubAux entries fuel rest

/-- Modelled from the claim's words (C8): a *simultaneous* substitution makes a
single left-to-right scan of each run, replacing at each position the first
entry whose old-value matches there; inserted new-values are never rescanned. -/
def simultaneousSub (entries : List (Str × Str)) (s : Str) : Str :=
  simultaneousSubAux entries (s.length + 1) s

/-- Modelled from the claim's words (C8): the simultaneous substitution applied
to every run of the document. -/
def simultaneousDocxSub (doc : Document) (entries : List (Str × Str)) : Document :=
  { paragraphs := doc.paragraphs.map (fun p => p.map (simultaneousSub entries)),
    tables := doc.tables.map (fun table => table.map (fun row => row.map (fun cell =>
      cell.map (fun p => p.map (simultaneousSub entries))))) }

/-! ## Extraction functions -/

/-- `extract_text_from_docx`: builds `full_text` by appending every top-level
paragraph text, then every table cell text (tables, then rows, then cells),
and newline-joins; any read error is caught and yields `""`. The
`Except`-valued argument stands for `Document(docx_path)`, which may raise. -/
def extract_text_from_docx (docxRead : Except String Document) : Str :=
  match docxRead with
  | .error _ => []
  | .ok doc =>
    let ft := doc.paragraphs.foldl (fun acc p => acc ++ [paraText p]) ([] : List Str)
    let ft := doc.tables.foldl
      (fun acc table => table.foldl
        (fun acc row => row.foldl (fun acc cell => acc ++ [cellText cell]) acc) acc) ft
    joinWith ['\n'] ft

/-- `extract_text_from_pdf`: `"".join(page.get_text() for page in doc)` over
the pages in order (each page modelled by its extracted text); any read error
is caught and yields `None` — an absent value, not a string. -/
def extract_text_from_pdf (pdfRead : Except String (List Str)) : Option Str :=
  match pdfRead with
  | .error _ => none
  | .ok pages => some (pages.foldl (fun acc page => acc ++ page) [])

/-! ## Python dict model

The script's dicts are modelled as association lists in insertion order,
with Python's update-in-place / append-if-new insertion semantics. -/

/-- Python `d[k]` lookup (`None` when absent). -/
def alookup {α : Type} (k : Str) : List (Str × α) → Option α
  | [] => none
  | (k', v) :: rest => if k' = k then some v else alookup k rest

/-- Python `d[k] = v`: updates the value in place when the key exists
(keeping its position), otherwise appends the new entry. -/
def pyInsert {α : Type} : List (Str × α) → Str → α → List (Str × α)
  | [], k, v => [(k, v)]
  | (k', v') :: rest, k, v =>
    if k' = k then (k', v) :: rest else (k', v') :: pyInsert rest k v

/-- `d[k] = v` when `k` is known to be present (as in `translate_fields`):
overwrite the value at the key, keeping the entry's position. -/
def setVal : List (Str × Str) → Str → Str → List (Str × Str)
  | [], _, _ => []
  | (k', v') :: rest, k, v =>
    if k' = k then (k', v) :: setVal rest k v else (k', v') :: setVal rest k v

/-! ## Python string stripping -/

/-- The whitespace set of Python `str.strip()` with no argument. -/
def pySpace (c : Char) : Bool :=
  c = ' ' || c = '\t' || c = '\n' || c = '\r' || c = Char.ofNat 11 || c = Char.ofNat 12

/-- Python `s.lstrip(chars)`: drops leading characters drawn from the SET
`chars` — not the literal prefix `chars`. -/
def pyLStrip (chars : Str) (s : Str) : Str := s.dropWhile (fun c => chars.contains c)

/-- Python `s.rstrip(chars)`: drops trailing characters drawn from the set. -/
def pyRStrip (chars : Str) (s : Str) : Str := (pyLStrip chars s.reverse).reverse

/-- Python `s.strip()`. -/
def pyStripWs (s : Str) : Str := ((s.dropWhile pySpace).reverse.dropWhile pySpace).reverse

/-! ## translate_fields -/

/-- One iteration of the `for field in fields_to_translate` loop of
`translate_fields`: when the field is present with a truthy (non-empty) value,
the service is called on that value; on success the stripped response text is
stored, on failure (`none`) the dict is left as it was. `svc` models
`model.generate_content` on the translation prompt built from the value. -/
def translate_step (svc : Str → Option Str) (data_dict : List (Str × Str))
    (field : Str) : List (Str × Str) :=
  match alookup field data_dict with
  | some v =>
    if v ≠ [] then
      match svc v with
      | some resp => setVal data_dict field (pyStripWs resp)
      | none => data_dict
    else data_dict
  | none => data_dict

/-- `translate_fields(data_dict, fields_to_translate)`. -/
def translate_fields (svc : Str → Option Str) (data_dict : List (Str × Str))
    (fields_to_translate : List Str) : List (Str × Str) :=
  fields_to_translate.foldl (translate_step svc) data_dict

/-! ## generate_final_document -/

/-- One iteration of the replacement-building loop of
`generate_final_document`: `if key in final_data:
replacements[str(old_value)] = str(new_value)`. The values are of an
arbitrary type `α` with stringification `toStr`, covering the non-string
JSON values the comment in the source warns about. -/
def build_step {α : Type} (toStr : α → Str) (final_data : List (Str × α))
    (m : List (Str × Str)) (kv : Str × α) : List (Str × Str) :=
  match alookup kv.1 final_data with
  | some new_value => pyInsert m (toStr kv.2) (toStr new_value)
  | none => m

/-- The replacements dict built by `generate_final_document` from the
template schema and the final data. -/
def buildReplacements {α : Type} (toStr : α → Str)
    (template_data final_data : List (Str × α)) : List (Str × Str) :=
  template_data.foldl (build_step toStr final_data) []

/-- `generate_final_document`: reload the template document (may raise, caught
→ no output), build the replacements dict, run `docx_replace`, save. The
returned document models the saved output file. -/
def generate_final_document {α : Type} (toStr : α → Str)
    (docRead : Except String Document)
    (template_data final_data : List (Str × α)) : Option Document :=
  match docRead with
  | .error _ => none
  | .ok doc => some (docx_replace doc (buildReplacements toStr template_data final_data))

/-! ## JSON values and a model of json.loads

The parser models `json.loads` on the shapes the script can receive:
objects, arrays, strings (with the standard single-character escapes and
`\uXXXX` outside the surrogate range), `true`/`false`/`null`, and integer
numbers. Fractional/exponent numbers are outside the model (the claims and
examples use none). Structural fuel always exceeds what any input needs. -/

inductive Json where
  | jstr : Str → Json
  | jnum : Int → Json
  | jbool : Bool → Json
  | jnull : Json
  | jarr : List Json → Json
  | jobj : List (Str × Json) → Json

/-- The `\x7b` character, kept out of literals. -/
def lbrace : Char := Char.ofNat 123

/-- The `\x7d` character, kept out of literals. -/
def rbrace : Char := Char.ofNat 125

/-- JSON insignificant whitespace. -/
def jsonWs (c : Char) : Bool := c = ' ' || c = '\t' || c = '\n' || c = '\r'

/-- Skip insignificant whitespace. -/
def skipWs (s : Str) : Str := s.dropWhile jsonWs

/-- Hexadecimal digit value. -/
def hexDigit (c : Char) : Option Nat :=
  if '0' ≤ c ∧ c ≤ '9' then some (c.toNat - 48)
  else if 'a' ≤ c ∧ c ≤ 'f' then some (c.toNat - 87)
  else if 'A' ≤ c ∧ c ≤ 'F' then some (c.toNat - 55)
  else none

/-- Parse the body of a JSON string after the opening quote; returns the
decoded characters and the remaining input after the closing quote. -/
def parseStrBody : Nat → Str → Option (Str × Str)
  | 0, _ => none
  | _ + 1, [] => none
  | fuel + 1, c :: rest =>
    let cont := fun (ch : Char) (rem : Str) =>
      (parseStrBody fuel rem).map (fun pr => (ch :: pr.1, pr.2))
    if c = '\"' then some ([], rest)
    else if c = '\\' then
      match rest with
      | [] => none
      | e :: rest2 =>
        if e = '\"' then cont '\"' rest2
        else if e = '\\' then cont '\\' rest2
        else if e = '/' then cont '/' rest2
        else if e = 'n' then cont '\n' rest2
        else if e = 't' then cont '\t' rest2
        else if e = 'r' then cont '\r' rest2
        else if e = 'b' then cont (Char.ofNat 8) rest2
        else if e = 'f' then cont (Char.ofNat 12) rest2
        else if e = 'u' then
          match rest2 with
          | h1 :: h2 :: h3 :: h4 :: rest3 =>
            match hexDigit h1, hexDigit h2, hexDigit h3, hexDigit h4 with
            | some a, some b, some c2, some d =>
              let n := ((a * 16 + b) * 16 + c2) * 16 + d
              if 0xd800 ≤ n ∧ n ≤ 0xdfff then none
              else cont (Char.ofNat n) rest3
            | _, _, _, _ => none
          | _ => none
        else none
    else cont c rest

/-- Parse a run of decimal digits into an accumulator. -/
def parseDigits : Nat → Str → Nat → Nat × Str
  | 0, s, acc => (acc, s)
  | _ + 1, [], acc => (acc, [])
  | fuel + 1, c :: rest, acc =>
    if c.isDigit then parseDigits fuel rest (acc * 10 + (c.toNat - 48))
    else (acc, c :: rest)

mutual

/-- Parse one JSON value at the head of the input (no leading whitespace). -/
def parseValue : Nat → Str → Option (Json × Str)
  | 0, _ => none
  | _ + 1, [] => none
  | fuel + 1, c :: rest =>
    if c = lbrace then
      match skipWs rest with
      | [] => none
      | d :: r2 =>
        if d = rbrace then some (.jobj [], r2)
        else (parseMembers fuel (d :: r2)).map (fun pr => (Json.jobj pr.1, pr.2))
    else if c = '[' then
      match skipWs rest with
      | [] => none
      | d :: r2 =>
        if d = ']' then some (.jarr [], r2)
        else (parseItems fuel (d :: r2)).map (fun pr => (Json.jarr pr.1, pr.2))
    else if c = '\"' then
      (parseStrBody fuel rest).map (fun pr => (Json.jstr pr.1, pr.2))
    else if c = 't' then
      if leadsWith "rue".data rest then some (.jbool true, rest.drop 3) else none
    else if c = 'f' then
      if leadsWith "alse".data rest then some (.jbool false, rest.drop 4) else none
    else if c = 'n' then
      if leadsWith "ull".data rest then some (.jnull, rest.drop 3) else none
    else if c = '-' then
      match rest with
      | d :: _ =>
        if d.isDigit then
          let pr := parseDigits fuel rest 0
          some (.jnum (-(pr.1 : Int)), pr.2)
        else none
      | [] => none
    else if c.isDigit then
      let pr := parseDigits fuel (c :: rest) 0
      some (.jnum (pr.1 : Int), pr.2)
    else none

/-- Parse `"key": value` members up to and including the closing brace. -/
def parseMembers : Nat → Str → Option (List (Str × Json) × Str)
  | 0, _ => none
  | _ + 1, [] => none
  | fuel + 1, c :: rest =>
    if c = '\"' then
      match parseStrBody fuel rest with
      | none => none
      | some (key, r1) =>
        match skipWs r1 with
        | [] => none
        | colon :: r3 =>
          if colon = ':' then
            match parseValue fuel (skipWs r3) with
            | none => none
            | some (v, r4) =>
              match skipWs r4 with
              | [] => none
              | sep :: r6 =>
                if sep = ',' then
                  (parseMembers fuel (skipWs r6)).map
                    (fun pr => ((key, v) :: pr.1, pr.2))
                else if sep = rbrace then some ([(key, v)], r6)
                else none
          else none
    else none

/-- Parse array items up to and including the closing bracket. -/
def parseItems : Nat → Str → Option (List Json × Str)
  | 0, _ => none
  | fuel + 1, s =>
    match parseValue fuel s with
    | none => none
    | some (v, r1) =>
      match skipWs r1 with
      | [] => none
      | sep :: r2 =>
        if sep = ',' then
          (parseItems fuel (skipWs r2)).map (fun pr => (v :: pr.1, pr.2))
        else if sep = ']' then some ([v], r2)
        else none

end

/-- Model of `json.loads`: whole-input parse of one JSON value. -/
def parseJson (s : Str) : Option Json :=
  match parseValue (2 * s.length + 2) (skipWs s) with
  | some (v, rest) => if skipWs rest = [] then some v else none
  | none => none

/-! ## Gemini response parsing -/

/-- The stripping pipeline applied to `response.text` in
`infer_placeholders_with_gemini` and `get_data_from_gemini`:
`.strip().lstrip("` ``` `json").rstrip("` ``` `").strip()`. Note the
character-SET semantics of `lstrip`/`rstrip`. -/
def strip_gemini_response (txt : Str) : Str :=
  pyStripWs (pyRStrip ['`'] (pyLStrip ['`', 'j', 's', 'o', 'n'] (pyStripWs txt)))

/-- `infer_placeholders_with_gemini`: the service response (`none` models a
raised exception) is stripped and fed to `json.loads`; any failure is caught
and yields the empty dict. The prompt construction does not influence the
returned value and is not modelled. -/
def infer_placeholders_with_gemini (response : Option Str) : Json :=
  match response with
  | none => Json.jobj []
  | some txt =>
    match parseJson (strip_gemini_response txt) with
    | some v => v
    | none => Json.jobj []

/-- `get_data_from_gemini`: identical response handling to
`infer_placeholders_with_gemini`. -/
def get_data_from_gemini (response : Option Str) : Json :=
  match response with
  | none => Json.jobj []
  | some txt =>
    match parseJson (strip_gemini_response txt) with
    | some v => v
    | none => Json.jobj []

/-- `trailsWith pat s`: `s` ends with `pat`. -/
def trailsWith (pat s : Str) : Bool := leadsWith pat.reverse s.reverse

/-- Follows the spec's words (C2), for comparison with the code: trim
whitespace, strip a LITERAL leading fenced code-block marker and a literal
trailing one when present, trim again. -/
def specMarkerStrip (s : Str) : Str :=
  let t := pyStripWs s
  let t :=
    if leadsWith "```json".data t then t.drop 7
    else if leadsWith "```".data t then t.drop 3
    else t
  let t := if trailsWith "```".data t then t.take (t.length - 3) else t
  pyStripWs t

/-! ## The main execution block -/

/-- The five effectful phases of the `__main__` block, in program order. -/
inductive Phase where
  | inferPhase
  | pdfPhase
  | dataPhase
  | translatePhase
  | generatePhase
deriving DecidableEq

/-- The `__main__` sequence: each phase runs only when every earlier phase
produced a truthy result; the returned list records which phases ran, and the
`Option Document` is the output file (`none` when none is written). The data
mappings are taken string-valued here; `inferOracle`/`getDataOracle` model the
already-parsed results of the two Gemini phases, `svc` the translation calls,
and `genRead` the re-read of the template inside `generate_final_document`. -/
def mainPipeline (docxRead : Except String Document)
    (inferOracle : Str → List (Str × Str))
    (pdfRead : Except String (List Str))
    (getDataOracle : List Str → Str → List (Str × Str))
    (svc : Str → Option Str) (fields_to_translate : List Str)
    (genRead : Except String Document) : List Phase × Option Document :=
  let template_text := extract_text_from_docx docxRead
  if template_text ≠ [] then
    let inferred_template_data := inferOracle template_text
    if inferred_template_data ≠ [] then
      match extract_text_from_pdf pdfRead with
      | some pdf_text =>
        if pdf_text ≠ [] then
          let final_extracted_data :=
            getDataOracle (inferred_template_data.map Prod.fst) pdf_text
          if final_extracted_data ≠ [] then
            let final_data_translated :=
              translate_fields svc final_extracted_data fields_to_translate
            ([.inferPhase, .pdfPhase, .dataPhase, .translatePhase, .generatePhase],
              generate_final_document (fun v => v) genRead
                inferred_template_data final_data_translated)
          else ([.inferPhase, .pdfPhase, .dataPhase], none)
        else ([.inferPhase, .pdfPhase], none)
      | none => ([.inferPhase, .pdfPhase], none)
    else ([.inferPhase], none)
  else ([], none)

/-! ## Theorems -/

theorem leadsWith_iff (pat s : Str) : leadsWith pat s = true ↔ ∃ t, s = pat ++ t := by
  induction pat generalizing s with
  | nil => simp [leadsWith]
  | cons c ps ih =>
    cases s with
    | nil => simp [leadsWith]
    | cons d ss =>
      simp only [leadsWith, Bool.and_eq_true, decide_eq_true_eq, ih]
      constructor
      · rintro ⟨rfl, t, rfl⟩; exact ⟨t, rfl⟩
      · rintro ⟨t, h⟩
        cases h
        exact ⟨rfl, t, rfl⟩

theorem leadsWith_length {pat s : Str} (h : leadsWith pat s = true) :
    pat.length ≤ s.length := by
  rcases (leadsWith_iff pat s).mp h with ⟨t, rfl⟩
  simp

theorem strContains_iff (s pat : Str) :
    strContains s pat = true ↔ ∃ a b, s = a ++ pat ++ b := by
  induction s with
  | nil =>
    rw [strContains]
    constructor
    · intro h
      split at h
      · rcases (leadsWith_iff pat []).mp (by assumption) with ⟨t, ht⟩
        rcases List.append_eq_nil.mp ht.symm with ⟨rfl, rfl⟩
        exact ⟨[], [], rfl⟩
      · exact absurd h (by simp)
    · rintro ⟨a, b, h⟩
      rcases List.append_eq_nil.mp h.symm with ⟨h2, rfl⟩
      rcases List.append_eq_nil.mp h2 with ⟨rfl, rfl⟩
      simp [leadsWith]
  | cons c rest ih =>
    rw [strContains]
    constructor
    · intro h
      split at h
      · rcases (leadsWith_iff pat (c :: rest)).mp (by assumption) with ⟨t, ht⟩
        exact ⟨[], t, by simp [ht]⟩
      · rcases ih.mp h with ⟨a, b, hab⟩
        exact ⟨c :: a, b, by simp [hab]⟩
    · rintro ⟨a, b, hab⟩
      split
      · rfl
      · rename_i hlw
        cases a with
        | nil =>
          exact absurd ((leadsWith_iff pat (c :: rest)).mpr ⟨b, by simpa using hab⟩) hlw
        | cons x xs =>
          simp only [List.cons_append, List.cons.injEq] at hab
          exact ih.mpr ⟨xs, b, hab.2⟩

theorem pyReplaceAux_irrel (new old : Str) :
    ∀ f₁ f₂ s, s.length < f₁ → s.length < f₂ →
      pyReplaceAux new old f₁ s = pyReplaceAux new old f₂ s := by
  intro f₁
  induction f₁ with
  | zero => intro f₂ s h1 h2; omega
  | succ a ih =>
    intro f₂ s h1 h2
    cases f₂ with
    | zero => omega
    | succ b =>
      simp only [pyReplaceAux]
      by_cases h0 : old = []
      · simp [h0]
      · rw [if_neg h0, if_neg h0]
        by_cases hp : leadsWith old s = true
        · rw [if_pos hp, if_pos hp]
          have hlen := leadsWith_length hp
          have hpos : 0 < old.length := List.length_pos.mpr h0
          congr 1
          apply ih
          · simp only [List.length_drop]; omega
          · simp only [List.length_drop]; omega
        · rw [if_neg hp, if_neg hp]
          cases s with
          | nil => rfl
          | cons c rest =>
            simp only [List.length_cons] at h1 h2
            show c :: pyReplaceAux new old a rest = c :: pyReplaceAux new old b rest
            exact congrArg _ (ih b rest (by omega) (by omega))

/-- The defining recurrence of `pyReplace`. -/
theorem pyReplace_unfold (s old new : Str) :
    pyReplace s old new =
      if old = [] then new ++ s.flatMap (fun c => c :: new)
      else if leadsWith old s then new ++ pyReplace (s.drop old.length) old new
      else
        match s with
        | [] => ([] : Str)
        | c :: rest => c :: pyReplace rest old new := by
  show pyReplaceAux new old (s.length + 1) s = _
  simp only [pyReplaceAux]
  by_cases h0 : old = []
  · simp [h0]
  · rw [if_neg h0, if_neg h0]
    by_cases hp : leadsWith old s = true
    · rw [if_pos hp, if_pos hp]
      congr 1
      have hlen := leadsWith_length hp
      have hpos : 0 < old.length := List.length_pos.mpr h0
      apply pyReplaceAux_irrel
      · simp only [List.length_drop]; omega
      · simp only [List.length_drop]; omega
    · rw [if_neg hp, if_neg hp]
      cases s with
      | nil => rfl
      | cons c rest => rfl

theorem pySplitOnAux_irrel (old : Str) :
    ∀ f₁ f₂ s, s.length < f₁ → s.length < f₂ →
      pySplitOnAux old f₁ s = pySplitOnAux old f₂ s := by
  intro f₁
  induction f₁ with
  | zero => intro f₂ s h1 h2; omega
  | succ a ih =>
    intro f₂ s h1 h2
    cases f₂ with
    | zero => omega
    | succ b =>
      simp only [pySplitOnAux]
      by_cases h0 : old = []
      · simp [h0]
      · rw [if_neg h0, if_neg h0]
        by_cases hp : leadsWith old s = true
        · rw [if_pos hp, if_pos hp]
          have hlen := leadsWith_length hp
          have hpos : 0 < old.length := List.length_pos.mpr h0
          congr 1
          apply ih
          · simp only [List.length_drop]; omega
          · simp only [List.length_drop]; omega
        · rw [if_neg hp, if_neg hp]
          cases s with
          | nil => rfl
          | cons c rest =>
            simp only [List.length_cons] at h1 h2
            show (match pySplitOnAux old a rest with
                  | [] => [[c]]
                  | t :: ts => (c :: t) :: ts) =
                (match pySplitOnAux old b rest with
                  | [] => [[c]]
                  | t :: ts => (c :: t) :: ts)
            rw [ih b rest (by omega) (by omega)]

/-- The defining recurrence of `pySplitOn`. -/
theorem pySplitOn_unfold (s old : Str) :
    pySplitOn s old =
      if old = [] then [s]
      else if leadsWith old s then [] :: pySplitOn (s.drop old.length) old
      else
        match s with
        | [] => [([] : Str)]
        | c :: rest =>
          match pySplitOn rest old with
          | [] => [[c]]
          | t :: ts => (c :: t) :: ts := by
  show pySplitOnAux old (s.length + 1) s = _
  simp only [pySplitOnAux]
  by_cases h0 : old = []
  · simp [h0]
  · rw [if_neg h0, if_neg h0]
    by_cases hp : leadsWith old s = true
    · rw [if_pos hp, if_pos hp]
      congr 1
      have hlen := leadsWith_length hp
      have hpos : 0 < old.length := List.length_pos.mpr h0
      apply pySplitOnAux_irrel
      · simp only [List.length_drop]; omega
      · simp only [List.length_drop]; omega
    · rw [if_neg hp, if_neg hp]
      cases s with
      | nil => rfl
      | cons c rest => rfl

theorem pySplitOn_ne_nil (s old : Str) : pySplitOn s old ≠ [] := by
  rw [pySplitOn_unfold]
  split
  · simp
  · split
    · simp
    · split
      · simp
      · split <;> simp

/-- `str.replace` is the `new`-join of the `old`-split: every occurrence is
replaced, not only the first. -/
theorem pyReplace_eq_joinWith_split (old new : Str) (h0 : old ≠ []) :
    ∀ s, pyReplace s old new = joinWith new (pySplitOn s old) := by
  have main : ∀ k s, s.length ≤ k → pyReplace s old new = joinWith new (pySplitOn s old) := by
    intro k
    induction k with
    | zero =>
      intro s hs
      have hnil : s = [] := List.eq_nil_of_length_eq_zero (Nat.le_zero.mp hs)
      subst hnil
      have hlw : leadsWith old [] = false := by
        cases old with
        | nil => exact absurd rfl h0
        | cons c cs => rfl
      rw [pyReplace_unfold, pySplitOn_unfold]
      simp [h0, hlw, joinWith]
    | succ k ih =>
      intro s hs
      by_cases hp : leadsWith old s = true
      · rw [pyReplace_unfold, pySplitOn_unfold, if_neg h0, if_pos hp, if_neg h0, if_pos hp]
        have hlen := leadsWith_length hp
        have hpos : 0 < old.length := List.length_pos.mpr h0
        have hdrop : (s.drop old.length).length ≤ k := by
          simp only [List.length_drop]
          omega
        rw [ih _ hdrop]
        rcases hsplit : pySplitOn (s.drop old.length) old with _ | ⟨t, ts⟩
        · exact absurd hsplit (pySplitOn_ne_nil _ _)
        · simp [joinWith]
      · cases s with
        | nil =>
          rw [pyReplace_unfold, pySplitOn_unfold]
          simp [h0, hp, joinWith]
        | cons c rest =>
          rw [pyReplace_unfold, pySplitOn_unfold, if_neg h0,
            if_neg (by simpa using hp), if_neg h0, if_neg (by simpa using hp)]
          show c :: pyReplace rest old new =
            joinWith new
              (match pySplitOn rest old with
               | [] => [[c]]
               | t :: ts => (c :: t) :: ts)
          have hrest : rest.length ≤ k := by
            simp only [List.length_cons] at hs
            omega
          rw [ih rest hrest]
          rcases hsplit : pySplitOn rest old with _ | ⟨t, ts⟩
          · exact absurd hsplit (pySplitOn_ne_nil _ _)
          · cases ts with
            | nil => simp [joinWith]
            | cons u us => simp [joinWith]
  exact fun s => main s.length s le_rfl

theorem strContains_of_mem_run {p : Paragraph} {r : Run} (hr : r ∈ p) {old : Str}
    (h : strContains r old = true) : strContains (paraText p) old = true := by
  rcases (strContains_iff r old).mp h with ⟨a, b, rfl⟩
  rcases List.append_of_mem hr with ⟨l1, l2, rfl⟩
  refine (strContains_iff _ old).mpr ⟨l1.flatten ++ a, b ++ l2.flatten, ?_⟩
  simp [paraText, List.flatten_append, List.flatten_cons, List.append_assoc]

/-- The `if old_text in p.text` guard of `docx_replace` is redundant: a run
containing `old` forces the paragraph text to contain `old`. -/
theorem replaceInPar_eq_replaceRuns (old new : Str) (p : Paragraph) :
    replaceInPar old new p = replaceRuns old new p := by
  rw [replaceInPar]
  split
  · rfl
  · rename_i hnot
    have hrun : ∀ r ∈ p, (if strContains r old then pyReplace r old new else r) = r := by
      intro r hr
      rw [if_neg]
      intro hc
      exact hnot (strContains_of_mem_run hr hc)
    calc p = p.map id := (List.map_id p).symm
    _ = replaceRuns old new p := (List.map_congr_left (fun r hr => (hrun r hr).symm))

theorem parasOf_docx_replace_step (doc : Document) (e : Str × Str) :
    parasOf (docx_replace_step doc e) = (parasOf doc).map (replaceInPar e.1 e.2) := by
  simp [parasOf, docx_replace_step, List.map_append, List.flatMap_map, List.map_flatMap]

/-- C1: for a replacement entry `(old, new)`, every paragraph of the document
(top-level or inside a table cell) is rewritten run by run: a run whose own
text contains `old` has every occurrence of `old` in it replaced by `new`
(`pyReplace` is Python's replace-all `str.replace`), and a run whose own text
does not contain `old` is left unchanged; in particular (second conjunct) a
paragraph in which no single run wholly contains `old` — e.g. an occurrence of
`old` spanning several runs — is left entirely unchanged, even when the
paragraph's rendered text does contain `old`. -/
theorem docx_replace_run_level (old new : Str) (doc : Document) :
    parasOf (docx_replace_step doc (old, new)) =
      (parasOf doc).map (fun p =>
        p.map (fun r => if strContains r old then pyReplace r old new else r)) ∧
    (∀ p ∈ parasOf doc, (∀ r ∈ p, strContains r old = false) →
      replaceInPar old new p = p) := by
  constructor
  · rw [parasOf_docx_replace_step]
    exact List.map_congr_left (fun p _ => replaceInPar_eq_replaceRuns old new p)
  · intro p _ hruns
    rw [replaceInPar_eq_replaceRuns, replaceRuns]
    calc p.map (fun r => if strContains r old then pyReplace r old new else r)
        = p.map id := List.map_congr_left (fun r hr => by simp [hruns r hr])
    _ = p := List.map_id p

/-- Witness for C1 at the spec's own example: the paragraph made of the two
runs `"Ac"` and `"me"` (an occurrence of `"Acme"` spanning both runs) is left
unchanged by the `("Acme", "Globex")` entry. -/
theorem docx_replace_run_level_witness :
    replaceInPar "Acme".data "Globex".data ["Ac".data, "me".data] =
      ["Ac".data, "me".data] := by
  have h := docx_replace_run_level "Acme".data "Globex".data
    ⟨[["Ac".data, "me".data]], []⟩
  exact h.2 ["Ac".data, "me".data] (by decide) (by decide)

/-- C10: in a single run whose text contains `old` — whether the run sits in a
top-level paragraph or in a paragraph inside a table cell — `docx_replace`
replaces every occurrence of `old`, not only the first: the run becomes the
`new`-join of the `old`-split of its text. -/
theorem docx_replace_every_occurrence (old new : Str) (doc : Document) (h0 : old ≠ []) :
    (docx_replace_step doc (old, new)).paragraphs =
      doc.paragraphs.map (fun p =>
        p.map (fun r => if strContains r old then joinWith new (pySplitOn r old) else r)) ∧
    (docx_replace_step doc (old, new)).tables =
      doc.tables.map (fun table => table.map (fun row => row.map (fun cell =>
        cell.map (fun p =>
          p.map (fun r =>
            if strContains r old then joinWith new (pySplitOn r old) else r))))) := by
  have hpar : ∀ p : Paragraph, replaceInPar old new p =
      p.map (fun r => if strContains r old then joinWith new (pySplitOn r old) else r) := by
    intro p
    rw [replaceInPar_eq_replaceRuns, replaceRuns]
    refine List.map_congr_left (fun r _ => ?_)
    split
    · exact pyReplace_eq_joinWith_split old new h0 r
    · rfl
  constructor
  · exact List.map_congr_left (fun p _ => hpar p)
  · refine List.map_congr_left (fun table _ => ?_)
    refine List.map_congr_left (fun row _ => ?_)
    refine List.map_congr_left (fun cell _ => ?_)
    exact List.map_congr_left (fun p _ => hpar p)

/-- Witness for C10: the run `"ab ab"` in a top-level paragraph and the run
`"zabab"` in a table cell both have every occurrence of `"ab"` replaced. -/
theorem docx_replace_every_occurrence_witness :
    (docx_replace_step ⟨[["ab ab".data]], [[[[["zabab".data]]]]]⟩
        ("ab".data, "X".data)).paragraphs = [["X X".data]] ∧
    (docx_replace_step ⟨[["ab ab".data]], [[[[["zabab".data]]]]]⟩
        ("ab".data, "X".data)).tables = [[[[["zXX".data]]]]] := by
  have h := docx_replace_every_occurrence "ab".data "X".data
    ⟨[["ab ab".data]], [[[[["zabab".data]]]]]⟩ (by decide)
  exact ⟨h.1.trans (by decide), h.2.trans (by decide)⟩

/-- C8: `docx_replace` applies its entries sequentially, one whole-document
pass per entry (first conjunct: the fold composes), and this differs from a
simultaneous substitution: with entries `[("a","b"), ("b","c")]` on the
single-run paragraph `"a"`, the first pass writes `"b"` and the second pass
rewrites that inserted text to `"c"`, while the simultaneous substitution
yields `"b"`. -/
theorem docx_replace_sequential_entries (doc : Document) (es₁ es₂ : List (Str × Str)) :
    docx_replace doc (es₁ ++ es₂) = docx_replace (docx_replace doc es₁) es₂ ∧
    docx_replace ⟨[["a".data]], []⟩ [("a".data, "b".data), ("b".data, "c".data)] =
      ⟨[["c".data]], []⟩ ∧
    simultaneousSub [("a".data, "b".data), ("b".data, "c".data)] "a".data = "b".data ∧
    docx_replace ⟨[["a".data]], []⟩ [("a".data, "b".data), ("b".data, "c".data)] ≠
      simultaneousDocxSub ⟨[["a".data]], []⟩
        [("a".data, "b".data), ("b".data, "c".data)] := by
  refine ⟨List.foldl_append _ _ es₁ es₂, by decide, by decide, by decide⟩

/-! ## Theorems: extraction (C6, C7) -/

theorem foldl_append_singleton {α β : Type} (f : α → β) :
    ∀ (l : List α) (acc : List β),
      l.foldl (fun a x => a ++ [f x]) acc = acc ++ l.map f := by
  intro l
  induction l with
  | nil => intro acc; simp
  | cons x xs ih => intro acc; simp [ih]

theorem cell_row_foldl (rows : List (List Cell)) :
    ∀ acc : List Str,
      rows.foldl (fun acc row =>
          row.foldl (fun acc cell => acc ++ [cellText cell]) acc) acc =
        acc ++ rows.flatMap (fun row => row.map cellText) := by
  induction rows with
  | nil => intro acc; simp
  | cons r rs ih =>
    intro acc
    simp only [List.foldl_cons, List.flatMap_cons]
    rw [foldl_append_singleton, ih]
    simp [List.append_assoc]

theorem tables_foldl (tables : List Table) :
    ∀ acc : List Str,
      tables.foldl (fun acc table =>
          table.foldl (fun acc row =>
            row.foldl (fun acc cell => acc ++ [cellText cell]) acc) acc) acc =
        acc ++ tables.flatMap (fun table => table.flatMap (fun row => row.map cellText)) := by
  induction tables with
  | nil => intro acc; simp
  | cons t ts ih =>
    intro acc
    simp only [List.foldl_cons, List.flatMap_cons]
    rw [cell_row_foldl, ih]
    simp [List.append_assoc]

/-- C6: on a successful read, `extract_text_from_docx` yields the newline join
of all paragraph texts followed by all table-cell texts, in traversal order
(paragraphs first, then for each table, each row, each cell); on a read error
it yields the empty string. -/
theorem extract_text_from_docx_traversal :
    (∀ doc : Document, extract_text_from_docx (Except.ok doc) =
      joinWith ['\n'] (doc.paragraphs.map paraText ++
        doc.tables.flatMap (fun table => table.flatMap (fun row => row.map cellText)))) ∧
    (∀ e : String, extract_text_from_docx (Except.error e) = []) := by
  constructor
  · intro doc
    show joinWith ['\n']
        (doc.tables.foldl _
          (doc.paragraphs.foldl (fun acc p => acc ++ [paraText p]) [])) = _
    rw [foldl_append_singleton, tables_foldl]
    simp
  · intro e
    rfl

theorem foldl_append_eq_flatten :
    ∀ (l : List Str) (acc : Str),
      l.foldl (fun a page => a ++ page) acc = acc ++ l.flatten := by
  intro l
  induction l with
  | nil => intro acc; simp
  | cons x xs ih => intro acc; simp [ih]

/-- C7: on a successful read, `extract_text_from_pdf` yields the concatenation
of the page texts in page order 1..N; on a read error it yields `none` — an
absent value, not a string — and with such a result the main sequence runs no
data-extraction, translation or generation phase and produces no output. -/
theorem extract_text_from_pdf_page_order :
    (∀ pages : List Str, extract_text_from_pdf (Except.ok pages) = some pages.flatten) ∧
    (∀ e : String, extract_text_from_pdf (Except.error e) = none) ∧
    (∀ (docxRead : Except String Document) (inferOracle : Str → List (Str × Str))
        (e : String) (getDataOracle : List Str → Str → List (Str × Str))
        (svc : Str → Option Str) (fields : List Str) (genRead : Except String Document),
      (mainPipeline docxRead inferOracle (Except.error e) getDataOracle svc fields genRead).2
          = none ∧
      Phase.dataPhase ∉
        (mainPipeline docxRead inferOracle (Except.error e) getDataOracle svc fields genRead).1 ∧
      Phase.translatePhase ∉
        (mainPipeline docxRead inferOracle (Except.error e) getDataOracle svc fields genRead).1 ∧
      Phase.generatePhase ∉
        (mainPipeline docxRead inferOracle (Except.error e) getDataOracle svc fields genRead).1) := by
  refine ⟨?_, fun e => rfl, ?_⟩
  · intro pages
    show some (pages.foldl (fun acc page => acc ++ page) []) = _
    rw [foldl_append_eq_flatten]
    rfl
  · intro docxRead inferOracle e getDataOracle svc fields genRead
    simp only [mainPipeline, extract_text_from_pdf]
    split
    · split
      · exact ⟨rfl, by decide, by decide, by decide⟩
      · exact ⟨rfl, by decide, by decide, by decide⟩
    · exact ⟨rfl, by decide, by decide, by decide⟩

/-! ## Theorems: the main sequence (C5) -/

/-- C5: whenever a phase of the main sequence yields an empty/falsy result
(empty template text; empty inferred schema; absent or empty PDF text; empty
extracted data), every later phase is skipped and no output document is
produced. With empty template text nothing at all runs: no service call, no
translation, no output. -/
theorem pipeline_halts_on_falsy (docxRead : Except String Document)
    (inferOracle : Str → List (Str × Str)) (pdfRead : Except String (List Str))
    (getDataOracle : List Str → Str → List (Str × Str))
    (svc : Str → Option Str) (fields : List Str) (genRead : Except String Document) :
    (extract_text_from_docx docxRead = [] →
      mainPipeline docxRead inferOracle pdfRead getDataOracle svc fields genRead
        = ([], none)) ∧
    (extract_text_from_docx docxRead ≠ [] →
      inferOracle (extract_text_from_docx docxRead) = [] →
      mainPipeline docxRead inferOracle pdfRead getDataOracle svc fields genRead
        = ([Phase.inferPhase], none)) ∧
    (extract_text_from_docx docxRead ≠ [] →
      inferOracle (extract_text_from_docx docxRead) ≠ [] →
      (extract_text_from_pdf pdfRead = none ∨ extract_text_from_pdf pdfRead = some []) →
      mainPipeline docxRead inferOracle pdfRead getDataOracle svc fields genRead
        = ([Phase.inferPhase, Phase.pdfPhase], none)) ∧
    (∀ pdf_text, extract_text_from_docx docxRead ≠ [] →
      inferOracle (extract_text_from_docx docxRead) ≠ [] →
      extract_text_from_pdf pdfRead = some pdf_text → pdf_text ≠ [] →
      getDataOracle ((inferOracle (extract_text_from_docx docxRead)).map Prod.fst) pdf_text
        = [] →
      mainPipeline docxRead inferOracle pdfRead getDataOracle svc fields genRead
        = ([Phase.inferPhase, Phase.pdfPhase, Phase.dataPhase], none)) := by
  refine ⟨?_, ?_, ?_, ?_⟩
  · intro h1
    simp [mainPipeline, h1]
  · intro h1 h2
    simp [mainPipeline, h1, h2]
  · intro h1 h2 h3
    rcases h3 with h3 | h3 <;> simp [mainPipeline, h1, h2, h3]
  · intro pdf_text h1 h2 h3 h4 h5
    simp [mainPipeline, h1, h2, h3, h4, h5]

/-- Witness for C5: one concrete run per failing phase. -/
theorem pipeline_halts_on_falsy_witness :
    mainPipeline (Except.error "no file") (fun _ => [(['k'], ['v'])]) (Except.ok [['p']])
        (fun _ _ => [(['k'], ['w'])]) (fun _ => none) [] (Except.error "no file")
      = ([], none) ∧
    mainPipeline (Except.ok ⟨[[['a']]], []⟩) (fun _ => []) (Except.ok [['p']])
        (fun _ _ => [(['k'], ['w'])]) (fun _ => none) [] (Except.error "no file")
      = ([Phase.inferPhase], none) ∧
    mainPipeline (Except.ok ⟨[[['a']]], []⟩) (fun _ => [(['k'], ['v'])])
        (Except.error "bad pdf") (fun _ _ => [(['k'], ['w'])]) (fun _ => none) []
        (Except.error "no file")
      = ([Phase.inferPhase, Phase.pdfPhase], none) ∧
    mainPipeline (Except.ok ⟨[[['a']]], []⟩) (fun _ => [(['k'], ['v'])])
        (Except.ok [['p']]) (fun _ _ => []) (fun _ => none) [] (Except.error "no file")
      = ([Phase.inferPhase, Phase.pdfPhase, Phase.dataPhase], none) := by
  refine ⟨?_, ?_, ?_, ?_⟩
  · exact (pipeline_halts_on_falsy _ _ _ _ _ _ _).1 rfl
  · exact (pipeline_halts_on_falsy _ _ _ _ _ _ _).2.1 (by decide) rfl
  · exact (pipeline_halts_on_falsy _ _ _ _ _ _ _).2.2.1 (by decide) (by decide) (Or.inl rfl)
  · exact (pipeline_halts_on_falsy _ _ _ _ _ _ _).2.2.2 ['p'] (by decide) (by decide) rfl
      (by decide) rfl

/-! ## Theorems: translate_fields (C3) -/

theorem alookup_setVal_self (d : List (Str × Str)) (k x : Str) :
    alookup k (setVal d k x) = (alookup k d).map (fun _ => x) := by
  induction d with
  | nil => rfl
  | cons p rest ih =>
    obtain ⟨k', v'⟩ := p
    by_cases h : k' = k
    · subst h
      simp [setVal, alookup]
    · simp [setVal, alookup, h, ih]

theorem alookup_setVal_ne (d : List (Str × Str)) (f k x : Str) (h : f ≠ k) :
    alookup k (setVal d f x) = alookup k d := by
  induction d with
  | nil => rfl
  | cons p rest ih =>
    obtain ⟨k', v'⟩ := p
    by_cases hf : k' = f
    · subst hf
      have hk : k' ≠ k := h
      simp [setVal, alookup, hk, ih]
    · by_cases hk : k' = k
      · subst hk
        simp [setVal, alookup, hf, ih]
      · simp [setVal, alookup, hf, hk, ih]

theorem alookup_translate_step_ne (svc : Str → Option Str) (d : List (Str × Str))
    (f k : Str) (h : f ≠ k) :
    alookup k (translate_step svc d f) = alookup k d := by
  unfold translate_step
  split
  · split
    · split
      · exact alookup_setVal_ne d f k _ h
      · rfl
    · rfl
  · rfl

theorem alookup_translate_step_self (svc : Str → Option Str) (d : List (Str × Str))
    (k v : Str) (hv : alookup k d = some v) (hne : v ≠ []) :
    alookup k (translate_step svc d k) =
      some (match svc v with
            | some resp => pyStripWs resp
            | none => v) := by
  unfold translate_step
  rw [hv]
  show alookup k (if v ≠ [] then
      (match svc v with
       | some resp => setVal d k (pyStripWs resp)
       | none => d)
    else d) = _
  rw [if_pos hne]
  rcases hsvc : svc v with _ | resp
  · exact hv
  · rw [alookup_setVal_self, hv]
    rfl

theorem alookup_translate_foldl_not_mem (svc : Str → Option Str) (l : List Str)
    (k : Str) (h : k ∉ l) :
    ∀ d, alookup k (l.foldl (translate_step svc) d) = alookup k d := by
  induction l with
  | nil => intro d; rfl
  | cons f fs ih =>
    intro d
    simp only [List.foldl_cons]
    have hk : k ∉ fs := fun hmem => h (List.mem_cons_of_mem f hmem)
    have hf : f ≠ k := fun he => h (he ▸ List.mem_cons_self f fs)
    rw [ih (fun hmem => h (List.mem_cons_of_mem f hmem)),
      alookup_translate_step_ne svc d f k hf]

/-- C3: for every designated field present in the data dict with a non-empty
value, a successful service call replaces the value with the stripped response
text, and a failed call leaves the original value in place; either way every
other designated field is processed on its own, with the same rule — one
field's failure never aborts the loop or empties the dict. -/
theorem translate_fields_per_key (svc : Str → Option Str)
    (data_dict : List (Str × Str)) (fields : List Str) (k v : Str)
    (hnd : fields.Nodup) (hk : k ∈ fields) (hv : alookup k data_dict = some v)
    (hne : v ≠ []) :
    alookup k (translate_fields svc data_dict fields) =
      some (match svc v with
            | some resp => pyStripWs resp
            | none => v) := by
  rcases List.append_of_mem hk with ⟨l1, l2, rfl⟩
  rcases List.nodup_append.mp hnd with ⟨-, hnd2, hdisj⟩
  have hk2 : k ∉ l2 := (List.nodup_cons.mp hnd2).1
  have hk1 : k ∉ l1 := fun hmem => hdisj hmem (List.mem_cons_self k l2)
  unfold translate_fields
  rw [List.foldl_append, List.foldl_cons,
    alookup_translate_foldl_not_mem svc l2 k hk2]
  have hv1 : alookup k (l1.foldl (translate_step svc) data_dict) = some v := by
    rw [alookup_translate_foldl_not_mem svc l1 k hk1]
    exact hv
  exact alookup_translate_step_self svc _ k v hv1 hne

/-- Witness for C3: with the service succeeding on `"Hello"` (response
`" T "`, stripped to `"T"`) and failing on `"keep"`, the `title` field is
translated and the `x` field keeps its value in the same run. -/
theorem translate_fields_per_key_witness :
    alookup "title".data (translate_fields
        (fun s => if s = "Hello".data then some " T ".data else none)
        [("title".data, "Hello".data), ("x".data, "keep".data)]
        ["title".data, "x".data]) = some "T".data ∧
    alookup "x".data (translate_fields
        (fun s => if s = "Hello".data then some " T ".data else none)
        [("title".data, "Hello".data), ("x".data, "keep".data)]
        ["title".data, "x".data]) = some "keep".data := by
  constructor
  · exact (translate_fields_per_key _ _ _ "title".data "Hello".data
      (by decide) (by decide) (by decide) (by decide)).trans (by decide)
  · exact (translate_fields_per_key _ _ _ "x".data "keep".data
      (by decide) (by decide) (by decide) (by decide)).trans (by decide)

/-! ## Theorems: the replacement set (C4, C9) -/

theorem alookup_pyInsert_self {α : Type} (m : List (Str × α)) (k : Str) (v : α) :
    alookup k (pyInsert m k v) = some v := by
  induction m with
  | nil => simp [pyInsert, alookup]
  | cons p rest ih =>
    obtain ⟨k', v'⟩ := p
    by_cases h : k' = k
    · subst h
      simp [pyInsert, alookup]
    · simp [pyInsert, alookup, h, ih]

theorem alookup_pyInsert_ne {α : Type} (m : List (Str × α)) (t k : Str) (v : α)
    (h : t ≠ k) : alookup k (pyInsert m t v) = alookup k m := by
  induction m with
  | nil => simp [pyInsert, alookup, h]
  | cons p rest ih =>
    obtain ⟨k', v'⟩ := p
    by_cases ht : k' = t
    · subst ht
      have hk : k' ≠ k := h
      simp [pyInsert, alookup, hk]
    · simp [pyInsert, alookup, ht, ih]

theorem mem_pyInsert {α : Type} (e : Str × α) (m : List (Str × α)) (k : Str) (v : α)
    (h : e ∈ pyInsert m k v) : e = (k, v) ∨ e ∈ m := by
  induction m with
  | nil => simpa [pyInsert] using h
  | cons p rest ih =>
    obtain ⟨k', v'⟩ := p
    by_cases hk : k' = k
    · subst hk
      simp only [pyInsert, if_pos rfl] at h
      rcases List.mem_cons.mp h with he | he
      · exact Or.inl (by simpa using he)
      · exact Or.inr (List.mem_cons_of_mem _ he)
    · simp only [pyInsert, if_neg hk] at h
      rcases List.mem_cons.mp h with he | he
      · exact Or.inr (he ▸ List.mem_cons_self _ rest)
      · rcases ih he with he2 | he2
        · exact Or.inl he2
        · exact Or.inr (List.mem_cons_of_mem _ he2)

theorem mem_keys_pyInsert {α : Type} (m : List (Str × α)) (k : Str) (v : α) (x : Str)
    (h : x ∈ (pyInsert m k v).map Prod.fst) : x ∈ m.map Prod.fst ∨ x = k := by
  rcases List.mem_map.mp h with ⟨e, he, rfl⟩
  rcases mem_pyInsert e m k v he with rfl | he2
  · exact Or.inr rfl
  · exact Or.inl (List.mem_map.mpr ⟨e, he2, rfl⟩)

theorem keys_nodup_pyInsert {α : Type} (m : List (Str × α)) (k : Str) (v : α)
    (h : (m.map Prod.fst).Nodup) : ((pyInsert m k v).map Prod.fst).Nodup := by
  induction m with
  | nil => simp [pyInsert]
  | cons p rest ih =>
    obtain ⟨k', v'⟩ := p
    simp only [List.map_cons, List.nodup_cons] at h
    by_cases hk : k' = k
    · subst hk
      have he : pyInsert ((k', v') :: rest) k' v = (k', v) :: rest := if_pos rfl
      rw [he]
      simp only [List.map_cons, List.nodup_cons]
      exact h
    · simp only [pyInsert, if_neg hk, List.map_cons, List.nodup_cons]
      refine ⟨fun hmem => ?_, ih h.2⟩
      rcases mem_keys_pyInsert rest k v k' hmem with hin | he
      · exact h.1 hin
      · exact hk he

theorem alookup_build_foldl_no_touch {α : Type} (toStr : α → Str)
    (final_data : List (Str × α)) (s : Str) :
    ∀ (l : List (Str × α)) (m : List (Str × Str)),
      (∀ p ∈ l, ∀ w, alookup p.1 final_data = some w → toStr p.2 ≠ s) →
      alookup s (l.foldl (build_step toStr final_data) m) = alookup s m := by
  intro l
  induction l with
  | nil => intro m _; rfl
  | cons p rest ih =>
    intro m hl
    simp only [List.foldl_cons]
    rw [ih _ (fun q hq => hl q (List.mem_cons_of_mem p hq))]
    unfold build_step
    rcases hf : alookup p.1 final_data with _ | w
    · rfl
    · exact alookup_pyInsert_ne m _ s _ (hl p (List.mem_cons_self p rest) w hf)

theorem keys_nodup_build_foldl {α : Type} (toStr : α → Str)
    (final_data : List (Str × α)) :
    ∀ (l : List (Str × α)) (m : List (Str × Str)),
      (m.map Prod.fst).Nodup →
      ((l.foldl (build_step toStr final_data) m).map Prod.fst).Nodup := by
  intro l
  induction l with
  | nil => intro m h; exact h
  | cons p rest ih =>
    intro m h
    simp only [List.foldl_cons]
    refine ih _ ?_
    unfold build_step
    rcases alookup p.1 final_data with _ | w
    · exact h
    · exact keys_nodup_pyInsert m _ _ h

/-- C9: the replacements dict of `generate_final_document` is keyed by the
stringified example value, so two distinct common keys with equal stringified
example values collide: the dict holds a single entry for that string (the
keys of the built dict are nodup), and its value is the stringified new value
of the key iterated last among the colliders — the later key overwrites the
earlier one, whose new value is never substituted. -/
theorem replacement_collision_last_wins {α : Type} (toStr : α → Str)
    (final_data pre mid post : List (Str × α)) (k1 k2 : Str) (v1 v2 w1 w2 : α)
    (_h1 : alookup k1 final_data = some w1)
    (h2 : alookup k2 final_data = some w2)
    (hcol : toStr v1 = toStr v2)
    (hlast : ∀ p ∈ post, ∀ w, alookup p.1 final_data = some w → toStr p.2 ≠ toStr v2) :
    alookup (toStr v2) (buildReplacements toStr
        (pre ++ (k1, v1) :: mid ++ (k2, v2) :: post) final_data) = some (toStr w2) ∧
    alookup (toStr v1) (buildReplacements toStr
        (pre ++ (k1, v1) :: mid ++ (k2, v2) :: post) final_data) = some (toStr w2) ∧
    ((buildReplacements toStr (pre ++ (k1, v1) :: mid ++ (k2, v2) :: post)
        final_data).map Prod.fst).Nodup := by
  have hmain : alookup (toStr v2) (buildReplacements toStr
      (pre ++ (k1, v1) :: mid ++ (k2, v2) :: post) final_data) = some (toStr w2) := by
    have hsplit : pre ++ (k1, v1) :: mid ++ (k2, v2) :: post
        = (pre ++ (k1, v1) :: mid) ++ (k2, v2) :: post := by simp
    unfold buildReplacements
    rw [hsplit, List.foldl_append, List.foldl_cons,
      alookup_build_foldl_no_touch toStr final_data (toStr v2) post _ hlast]
    unfold build_step
    rw [h2]
    exact alookup_pyInsert_self _ _ _
  refine ⟨hmain, hcol ▸ hmain, ?_⟩
  unfold buildReplacements
  exact keys_nodup_build_foldl toStr final_data _ [] (by simp)

/-- Witness for C9: template keys `k1`, `k2` share the example value `"v"`;
with final data `\x7bk1: "a", k2: "b"\x7d` the built dict maps `"v"` to `"b"`
(the later key's value) and holds a single entry. -/
theorem replacement_collision_last_wins_witness :
    alookup "v".data (buildReplacements (fun x => x)
        [("k1".data, "v".data), ("k2".data, "v".data)]
        [("k1".data, "a".data), ("k2".data, "b".data)]) = some "b".data ∧
    ((buildReplacements (fun x => x)
        [("k1".data, "v".data), ("k2".data, "v".data)]
        [("k1".data, "a".data), ("k2".data, "b".data)]).map Prod.fst).Nodup := by
  have h := replacement_collision_last_wins (fun x : Str => x)
    [("k1".data, "a".data), ("k2".data, "b".data)] [] [] []
    "k1".data "k2".data "v".data "v".data "a".data "b".data
    (by decide) (by decide) rfl (fun p hp => absurd hp (List.not_mem_nil p))
  exact ⟨h.1, h.2.2⟩

/-- Counterexample to C4 as stated: template keys `k1`, `k2` are both present
in the final data and share the stringified example value `"v"`, yet the
entry for `k1` (`"v" → "a"`) is NOT in the built replacement set — `k2`'s
entry overwrote it, leaving only `"v" → "b"`. -/
theorem replacement_set_exact_counterexample :
    alookup "k1".data [("k1".data, "v".data), ("k2".data, "v".data)]
        = some "v".data ∧
    alookup "k1".data [("k1".data, "a".data), ("k2".data, "b".data)]
        = some "a".data ∧
    ("v".data, "a".data) ∉ buildReplacements (fun x : Str => x)
        [("k1".data, "v".data), ("k2".data, "v".data)]
        [("k1".data, "a".data), ("k2".data, "b".data)] ∧
    buildReplacements (fun x : Str => x)
        [("k1".data, "v".data), ("k2".data, "v".data)]
        [("k1".data, "a".data), ("k2".data, "b".data)] = [("v".data, "b".data)] := by
  refine ⟨rfl, rfl, by decide, rfl⟩

theorem mem_build_foldl {α : Type} (toStr : α → Str) (final_data : List (Str × α)) :
    ∀ (l : List (Str × α)) (m : List (Str × Str)) (e : Str × Str),
      e ∈ l.foldl (build_step toStr final_data) m →
      e ∈ m ∨ ∃ p ∈ l, ∃ w, alookup p.1 final_data = some w ∧
        e.1 = toStr p.2 ∧ e.2 = toStr w := by
  intro l
  induction l with
  | nil => intro m e he; exact Or.inl he
  | cons p rest ih =>
    intro m e he
    simp only [List.foldl_cons] at he
    rcases ih _ e he with hm | ⟨q, hq, w, hw, h1, h2⟩
    · unfold build_step at hm
      split at hm
      · rename_i w heq
        rcases mem_pyInsert e m _ _ hm with rfl | hem
        · exact Or.inr ⟨p, List.mem_cons_self p rest, w, heq, rfl, rfl⟩
        · exact Or.inl hem
      · exact Or.inl hm
    · exact Or.inr ⟨q, List.mem_cons_of_mem p hq, w, hw, h1, h2⟩

theorem alookup_build_common {α : Type} (toStr : α → Str) (final_data : List (Str × α)) :
    ∀ l : List (Str × α),
      (∀ p ∈ l, ∀ q ∈ l,
        (alookup p.1 final_data).isSome = true → (alookup q.1 final_data).isSome = true →
        toStr p.2 = toStr q.2 → p.1 = q.1) →
      ∀ p ∈ l, ∀ w, alookup p.1 final_data = some w →
        alookup (toStr p.2) (buildReplacements toStr l final_data) = some (toStr w) := by
  intro l
  induction l using List.reverseRecOn with
  | nil =>
    intro _ p hp
    exact absurd hp (List.not_mem_nil p)
  | append_singleton l x ih =>
    intro hinj p hp w hw
    obtain ⟨k2, v2⟩ := x
    have hbuild : buildReplacements toStr (l ++ [(k2, v2)]) final_data
        = build_step toStr final_data (buildReplacements toStr l final_data) (k2, v2) := by
      unfold buildReplacements
      rw [List.foldl_append]
      rfl
    rw [hbuild]
    rcases List.mem_append.mp hp with hpl | hpx
    · have hrec := ih
        (fun a ha b hb => hinj a (List.mem_append_left _ ha) b (List.mem_append_left _ hb))
        p hpl w hw
      unfold build_step
      rcases hf : alookup (k2, v2).1 final_data with _ | w2
      · exact hrec
      · by_cases hcol : toStr v2 = toStr p.2
        · have hkeq : (k2, v2).1 = p.1 :=
            hinj (k2, v2) (List.mem_append_right _ (List.mem_cons_self _ _))
              p (List.mem_append_left _ hpl)
              (by rw [hf]; rfl) (by rw [hw]; rfl) hcol
          have hweq : w2 = w := by
            rw [hkeq, hw] at hf
            exact (Option.some.inj hf).symm
          show alookup (toStr p.2)
              (pyInsert (buildReplacements toStr l final_data) (toStr v2) (toStr w2))
            = some (toStr w)
          rw [hcol, hweq]
          exact alookup_pyInsert_self _ _ _
        · show alookup (toStr p.2)
              (pyInsert (buildReplacements toStr l final_data) (toStr v2) (toStr w2))
            = some (toStr w)
          rw [alookup_pyInsert_ne _ _ _ _ hcol]
          exact hrec
    · have hpe : p = (k2, v2) := by simpa using hpx
      subst hpe
      unfold build_step
      rw [hw]
      exact alookup_pyInsert_self _ _ _

/-- C4 amended: when the stringified example values of the common keys are
pairwise distinct (no collision — collisions are C9's subject), the built
replacement set contains the entry (stringified example value → stringified
new value) exactly for the keys present in both mappings: every common key
contributes its entry (first conjunct), every entry of the set arises from a
common key (second conjunct — so keys present in only one mapping contribute
no entry), and the construction is total (no error). -/
theorem replacement_set_common_keys {α : Type} (toStr : α → Str)
    (template_data final_data : List (Str × α))
    (hinj : ∀ p ∈ template_data, ∀ q ∈ template_data,
      (alookup p.1 final_data).isSome = true → (alookup q.1 final_data).isSome = true →
      toStr p.2 = toStr q.2 → p.1 = q.1) :
    (∀ p ∈ template_data, ∀ w, alookup p.1 final_data = some w →
      alookup (toStr p.2) (buildReplacements toStr template_data final_data)
        = some (toStr w)) ∧
    (∀ e ∈ buildReplacements toStr template_data final_data,
      ∃ p ∈ template_data, ∃ w, alookup p.1 final_data = some w ∧
        e.1 = toStr p.2 ∧ e.2 = toStr w) := by
  constructor
  · exact alookup_build_common toStr final_data template_data hinj
  · intro e he
    rcases mem_build_foldl toStr final_data template_data [] e he with hm | hfound
    · exact absurd hm (List.not_mem_nil e)
    · exact hfound

/-- Witness for C4: common keys `k1`, `k2` (distinct example values `v1`,
`v2`) each contribute their entry; the template-only key `only` and the
final-only key `extra` contribute none. -/
theorem replacement_set_common_keys_witness :
    alookup "v1".data (buildReplacements (fun x : Str => x)
        [("k1".data, "v1".data), ("k2".data, "v2".data), ("only".data, "z".data)]
        [("k1".data, "a".data), ("k2".data, "b".data), ("extra".data, "c".data)])
      = some "a".data ∧
    alookup "v2".data (buildReplacements (fun x : Str => x)
        [("k1".data, "v1".data), ("k2".data, "v2".data), ("only".data, "z".data)]
        [("k1".data, "a".data), ("k2".data, "b".data), ("extra".data, "c".data)])
      = some "b".data ∧
    alookup "z".data (buildReplacements (fun x : Str => x)
        [("k1".data, "v1".data), ("k2".data, "v2".data), ("only".data, "z".data)]
        [("k1".data, "a".data), ("k2".data, "b".data), ("extra".data, "c".data)])
      = none := by
  refine ⟨?_, ?_, by decide⟩
  · exact (replacement_set_common_keys (fun x : Str => x) _ _ (by decide)).1
      ("k1".data, "v1".data) (by decide) "a".data rfl
  · exact (replacement_set_common_keys (fun x : Str => x) _ _ (by decide)).1
      ("k2".data, "v2".data) (by decide) "b".data rfl

/-! ## Theorems: Gemini response parsing (C2) -/

/-- Counterexample to C2 as stated: the response `son{"a": "x"}` carries no
fenced code-block marker, so after trimming and literal marker stripping it is
unchanged and is NOT valid JSON — the claim then demands the empty mapping.
But `lstrip("` ``` `json")` strips by character SET, eats the letters `son`,
and the function returns the non-empty mapping `\x7ba: x\x7d`. -/
theorem gemini_parse_marker_counterexample :
    specMarkerStrip "son\x7b\x22a\x22: \x22x\x22\x7d".data
      = "son\x7b\x22a\x22: \x22x\x22\x7d".data ∧
    parseJson (specMarkerStrip "son\x7b\x22a\x22: \x22x\x22\x7d".data) = none ∧
    infer_placeholders_with_gemini (some "son\x7b\x22a\x22: \x22x\x22\x7d".data)
      = Json.jobj [("a".data, Json.jstr "x".data)] ∧
    infer_placeholders_with_gemini (some "son\x7b\x22a\x22: \x22x\x22\x7d".data)
      ≠ Json.jobj [] ∧
    get_data_from_gemini (some "son\x7b\x22a\x22: \x22x\x22\x7d".data)
      ≠ Json.jobj [] := by
  refine ⟨rfl, rfl, rfl, fun contra => ?_, fun contra => ?_⟩
  · have h : infer_placeholders_with_gemini (some "son\x7b\x22a\x22: \x22x\x22\x7d".data)
        = Json.jobj [("a".data, Json.jstr "x".data)] := rfl
    rw [h] at contra
    simp at contra
  · have h : get_data_from_gemini (some "son\x7b\x22a\x22: \x22x\x22\x7d".data)
        = Json.jobj [("a".data, Json.jstr "x".data)] := rfl
    rw [h] at contra
    simp at contra

/-- C2 amended: the stripping is by character set (any leading run of
characters from `` ` ``/`j`/`s`/`o`/`n` and any trailing backticks, with
whitespace trims around), not by literal marker. For every response whose
charset-stripped text parses as a JSON object, both functions return exactly
that mapping; for every response whose charset-stripped text is not valid
structured data, and for a failed service call, both return the empty
mapping. -/
theorem gemini_parse_charset_strip (t : Str) :
    (∀ m, parseJson (strip_gemini_response t) = some (Json.jobj m) →
      infer_placeholders_with_gemini (some t) = Json.jobj m ∧
      get_data_from_gemini (some t) = Json.jobj m) ∧
    (parseJson (strip_gemini_response t) = none →
      infer_placeholders_with_gemini (some t) = Json.jobj [] ∧
      get_data_from_gemini (some t) = Json.jobj []) ∧
    infer_placeholders_with_gemini none = Json.jobj [] ∧
    get_data_from_gemini none = Json.jobj [] := by
  refine ⟨fun m hm => ?_, fun hn => ?_, rfl, rfl⟩
  · constructor <;> simp [infer_placeholders_with_gemini, get_data_from_gemini, hm]
  · constructor <;> simp [infer_placeholders_with_gemini, get_data_from_gemini, hn]

/-- Witness for C2 (amended): a well-fenced response yields exactly the
mapping `\x7ba: x, b: y\x7d` in both functions, and a malformed response
yields the empty mapping. -/
theorem gemini_parse_charset_strip_witness :
    infer_placeholders_with_gemini
        (some "```json\n\x7b\x22a\x22: \x22x\x22, \x22b\x22: \x22y\x22\x7d\n```".data)
      = Json.jobj [("a".data, Json.jstr "x".data), ("b".data, Json.jstr "y".data)] ∧
    get_data_from_gemini
        (some "```json\n\x7b\x22a\x22: \x22x\x22, \x22b\x22: \x22y\x22\x7d\n```".data)
      = Json.jobj [("a".data, Json.jstr "x".data), ("b".data, Json.jstr "y".data)] ∧
    infer_placeholders_with_gemini (some "garbage".data) = Json.jobj [] := by
  refine ⟨?_, ?_, ?_⟩
  · exact ((gemini_parse_charset_strip
      "```json\n\x7b\x22a\x22: \x22x\x22, \x22b\x22: \x22y\x22\x7d\n```".data).1 _ rfl).1
  · exact ((gemini_parse_charset_strip
      "```json\n\x7b\x22a\x22: \x22x\x22, \x22b\x22: \x22y\x22\x7d\n```".data).1 _ rfl).2
  · exact ((gemini_parse_charset_strip "garbage".data).2.1 rfl).1
